import Mathlib

/-!
Verification development for the private-pgm repository core.

This file gives a shallow embedding of the three source files
`src/mbi/clique_vector.py`, `src/mbi/estimation.py` and
`src/mechanisms/aim_simple.py`, and proves properties about them.

Modelling conventions, shared by the whole development:
  - attributes are natural numbers; a clique (a Python tuple of attribute
    names) is a `List ℕ`, so tuple equality is list equality while the
    set-based subset tests of the source use a set-style comparison;
  - Python floats are modelled as rationals `ℚ`; the square root of the
    numerics library is an abstract function `ℚ → ℚ` supplied by the
    environment, as is the constant pi;
  - Python dicts are association lists in insertion order, which is how
    dicts iterate; comprehensions that can raise `KeyError` become
    `Option`-valued operations;
  - code that raises an exception is modelled with `Option`/`Except`;
  - external collaborators (Factor, Domain, the marginal oracle, the
    junction-tree builder, the exponential-mechanism sampler, the noise
    generator, the loss builder and the synthetic sampler) are abstract
    functions bundled in environment structures, since the repository
    consumes them through exactly these entry points.
-/

set_option allowUnsafeReducibility true in
attribute [semireducible] Rat.add Rat.mul Rat.sub Rat.inv

/-- An attribute is identified by a natural number; a clique is a Python tuple
of attribute names, modelled as a list so element order and duplicates behave
like tuples do. -/
abbrev Clique := List ℕ

/-- Set-style subset test between cliques: the Python expression
`set(a) <= set(b)` used by `CliqueVector.project` and `CliqueVector.combine`. -/
def subsetC (a b : Clique) : Bool := a.all (fun x => b.contains x)

/-- Deduplication keeping the first occurrence, modelling the key order that
Python dict and set construction produce from an iteration. -/
def dedupFirst (l : List Clique) : List Clique :=
  l.foldl (fun acc a => if a ∈ acc then acc else acc ++ [a]) []

/-- Dictionary built by `weights = {cl: wt for (cl, wt) in workload}` in
`compile_workload`: first-occurrence key order, later pairs overwrite the
stored weight. -/
def weightsOf (workload : List (Clique × ℚ)) : List (Clique × ℚ) :=
  workload.foldl (fun acc p =>
    if (acc.map Prod.fst).contains p.1 then
      acc.map (fun q => if q.1 = p.1 then (q.1, p.2) else q)
    else acc ++ [p]) []

/-- Translation of `powerset` from aim_simple.py: `itertools.combinations` for
every size from 1 to the length, i.e. all non-empty subsequences of the
tuple. -/
def powersetL (l : Clique) : List Clique := l.sublists.filter (fun s => !s.isEmpty)

/-- Insertion into a list sorted by length, placing the new clique after all
cliques of smaller or equal length (a stable sort step). -/
def insertByLen (a : Clique) : List Clique → List Clique
  | [] => [a]
  | b :: bs => if a.length < b.length then a :: b :: bs else b :: insertByLen a bs

/-- Stable sort by increasing length, modelling `sorted(ans, key=len)`. -/
def sortByLen (l : List Clique) : List Clique :=
  l.foldl (fun acc a => insertByLen a acc) []

/-- Translation of `downward_closure` from aim_simple.py: the union of the
powersets of the given cliques, sorted by increasing size.  Python iterates the
intermediate set in an unspecified order; the model fixes first-occurrence
order before the (stable) sort by length. -/
def downward_closure (Ws : List Clique) : List Clique :=
  sortByLen (dedupFirst (Ws.map powersetL).flatten)

/-- Number of attributes two cliques share: `len(set(cl) & set(workload_cl))`. -/
def interCard (a b : Clique) : ℕ := (a.toFinset ∩ b.toFinset).card

/-- Score of a candidate clique in `compile_workload`: the weighted sum of
attribute overlaps with the workload cliques. -/
def workloadScore (weights : List (Clique × ℚ)) (cl : Clique) : ℚ :=
  (weights.map (fun p => p.2 * (interCard cl p.1 : ℚ))).sum

/-- Translation of `compile_workload` from aim_simple.py. -/
def compile_workload (workload : List (Clique × ℚ)) : List (Clique × ℚ) :=
  let weights := weightsOf workload
  (downward_closure (weights.map Prod.fst)).map (fun cl => (cl, workloadScore weights cl))

/-- A noisy linear measurement (the external LinearMeasurement record): the
noisy value, the clique it belongs to, its query operator (Option-valued since
applying it can raise, which `minimum_variance_unbiased_total` catches) and the
recorded noise standard deviation. -/
structure LinearMeasurement where
  noisy_measurement : List ℚ
  clique : Clique
  query : List ℚ → Option (List ℚ)
  stddev : ℚ

/-- Model of `np.allclose` with its default tolerances rtol = 1e-5 and
atol = 1e-8: elementwise closeness of two equal-length vectors. -/
def allclose (a b : List ℚ) : Bool :=
  a.length == b.length &&
    (a.zip b).all (fun p => decide (|p.1 - p.2| ≤ 1/10^8 + |p.2|/10^5))

/-- Qualifying (estimate, variance) pairs of `minimum_variance_unbiased_total`:
measurements whose query leaves the noisy value unchanged contribute their sum
together with variance stddev^2 times the vector length; measurements whose
query raises are skipped. -/
def mvuPairs (measurements : List LinearMeasurement) : List (ℚ × ℚ) :=
  measurements.filterMap (fun M =>
    let y := M.noisy_measurement
    match M.query y with
    | none => none
    | some qy =>
        if allclose qy y then some (y.sum, M.stddev^2 * (y.length : ℚ)) else none)

/-- Translation of `minimum_variance_unbiased_total` from estimation.py. -/
def minimum_variance_unbiased_total (measurements : List LinearMeasurement) : ℚ :=
  let pairs := mvuPairs measurements
  if pairs.length = 0 then 1
  else
    let variance := 1 / (pairs.map (fun p => 1 / p.2)).sum
    let estimate := variance * (pairs.map (fun p => p.1 / p.2)).sum
    max 1 estimate

/-! Clique vector algebra, from src/mbi/clique_vector.py.  The Factor and
Domain collaborators are external (dense arrays and attribute domains); they
enter the embedding as the abstract operation bundle `FactorOps`, exactly the
entry points the Python code calls on them. -/

/-- Operations of the external Factor and Domain collaborators used by the
core: factor construction, arithmetic, reduction, projection, flattening, the
domain of a factor, and domain projection, merge (which fails on a cardinality
conflict) and size. -/
structure FactorOps (F D : Type) where
  fzeros : D → F
  fadd : F → F → F
  fscale : ℚ → F → F
  fmul : F → F → F
  fsum : F → ℚ
  fproject : F → Clique → F
  fdata : F → List ℚ
  fdomain : F → D
  domProject : D → Clique → D
  domMerge : D → D → Option D
  domSize : D → Clique → ℕ

/-- A CliqueVector is a Python dict from cliques to factors, modelled as an
association list in insertion order. -/
abbrev CliqueVector (F : Type) := List (Clique × F)

namespace CliqueVector

/-- Keys of the dict, in order: the `cliques` property. -/
def cliquesOf {F : Type} (V : CliqueVector F) : List Clique := V.map Prod.fst

/-- Dict lookup by exact key (tuple) equality. -/
def lookup {F : Type} (V : CliqueVector F) (c : Clique) : Option F :=
  match V with
  | [] => none
  | p :: rest => if p.1 = c then some p.2 else lookup rest c

/-- Translation of `CliqueVector.zeros`: one zero factor per clique over the
projected domain.  The dict comprehension deduplicates cliques keeping first
position (the factor built for a repeated clique is identical). -/
def zeros {F D : Type} (ops : FactorOps F D) (domain : D) (cliques : List Clique) :
    CliqueVector F :=
  (dedupFirst cliques).map (fun cl => (cl, ops.fzeros (ops.domProject domain cl)))

/-- Translation of the `domain` property: the merge of all stored factor
domains via `functools.reduce`; an empty vector raises (none), and a merge
conflict raises inside `Domain.merge` (none). -/
def domainOf {F D : Type} (ops : FactorOps F D) (V : CliqueVector F) : Option D :=
  match V.map (fun p => ops.fdomain p.2) with
  | [] => none
  | d :: ds => ds.foldlM ops.domMerge d

/-- Translation of `CliqueVector.project`: scan the stored cliques in order
and return the projection of the factor at the first key that is a set
superset of the query; raise a ValueError when no key covers the query. -/
def project {F D : Type} (ops : FactorOps F D) (V : CliqueVector F) (clique : Clique) :
    Except String F :=
  match V with
  | [] => Except.error "Cannot project"
  | (cl, f) :: rest =>
      if subsetC clique cl then Except.ok (ops.fproject f clique)
      else project ops rest clique

/-- One step of `CliqueVector.combine`: add the factor `f` of clique `c` into
the first stored entry whose key covers `c`, leaving the vector unchanged when
no stored key covers `c` (the inner for loop with its break). -/
def addToFirst {F D : Type} (ops : FactorOps F D) (V : CliqueVector F)
    (c : Clique) (f : F) : CliqueVector F :=
  match V with
  | [] => []
  | (c2, g) :: rest =>
      if subsetC c c2 then (c2, ops.fadd g f) :: rest
      else (c2, g) :: addToFirst ops rest c f

/-- Translation of `CliqueVector.combine` (the in-place mutation is modelled
by returning the updated vector): every clique of `other` is folded into the
receiver in iteration order. -/
def combine {F D : Type} (ops : FactorOps F D) (V other : CliqueVector F) :
    CliqueVector F :=
  other.foldl (fun acc p => addToFirst ops acc p.1 p.2) V

/-- Scalar multiplication, `__mul__`: elementwise scaling over all keys. -/
def smul {F D : Type} (ops : FactorOps F D) (c : ℚ) (V : CliqueVector F) :
    CliqueVector F :=
  V.map (fun p => (p.1, ops.fscale c p.2))

/-- Translation of the CliqueVector branch of `__add__`: the comprehension
iterates the keys of the left operand and looks each one up in the right
operand, raising KeyError (none) at the first key the right operand lacks. -/
def add {F D : Type} (ops : FactorOps F D) (V other : CliqueVector F) :
    Option (CliqueVector F) :=
  match V with
  | [] => some []
  | p :: rest =>
      match lookup other p.1 with
      | none => none
      | some g => (add ops rest other).map (fun t => (p.1, ops.fadd p.2 g) :: t)

/-- Translation of `__sub__`: `self + (-1) * other`. -/
def sub {F D : Type} (ops : FactorOps F D) (V other : CliqueVector F) :
    Option (CliqueVector F) :=
  add ops V (smul ops (-1) other)

/-- Translation of `dot`: the sum over the keys of the left operand of the
reduced elementwise product, raising KeyError (none) at the first key the
right operand lacks. -/
def dot {F D : Type} (ops : FactorOps F D) (V other : CliqueVector F) :
    Option ℚ :=
  match V with
  | [] => some 0
  | p :: rest =>
      match lookup other p.1 with
      | none => none
      | some g => (dot ops rest other).map (fun s => ops.fsum (ops.fmul p.2 g) + s)

end CliqueVector

/-! Estimation engine, from src/mbi/estimation.py. -/

/-- A marginal loss function as produced by the external
`marginal_loss.from_linear_measurements` or supplied by a caller: its clique
list, its value, and its gradient (the reverse-mode derivative that
`jax.value_and_grad` provides). -/
structure MarginalLossFn (F : Type) where
  cliques : List Clique
  val : CliqueVector F → ℚ
  grad : CliqueVector F → CliqueVector F

/-- Translation of the GraphicalModel record: potentials, marginals and the
total count. -/
structure GraphicalModel (F : Type) where
  potentials : CliqueVector F
  marginals : CliqueVector F
  total : ℚ

/-- Translation of `GraphicalModel.project`: try the stored marginals first
and fall back to exact variable elimination over the potentials (an external
oracle) whenever the stored projection raises. -/
def GraphicalModel.project {F D : Type} (ops : FactorOps F D)
    (variableElim : CliqueVector F → Clique → ℚ → F)
    (m : GraphicalModel F) (attrs : Clique) : F :=
  match CliqueVector.project ops m.marginals attrs with
  | Except.ok f => f
  | Except.error _ => variableElim m.potentials attrs m.total

/-- Translation of `_initialize` from estimation.py: a measurement list turns
into a loss function through the external builder and, when no total is given,
through `minimum_variance_unbiased_total`; a custom loss without an explicit
total raises a ValueError (none); missing potentials default to zeros over the
loss cliques. -/
def initializeEstimation {F D : Type} (ops : FactorOps F D)
    (flm : List LinearMeasurement → MarginalLossFn F)
    (domain : D) (lossArg : List LinearMeasurement ⊕ MarginalLossFn F)
    (known_total : Option ℚ) (potentials : Option (CliqueVector F)) :
    Option (MarginalLossFn F × ℚ × CliqueVector F) :=
  match lossArg with
  | Sum.inl measurements =>
      let total := match known_total with
        | none => minimum_variance_unbiased_total measurements
        | some t => t
      let lossFn := flm measurements
      some (lossFn, total,
        potentials.getD (CliqueVector.zeros ops domain lossFn.cliques))
  | Sum.inr lossFn =>
      match known_total with
      | none => none
      | some t =>
          some (lossFn, t,
            potentials.getD (CliqueVector.zeros ops domain lossFn.cliques))

/-- Translation of the jitted `update` closure of `mirror_descent`: one
proximal step with the Armijo-style line search when no fixed stepsize is
configured.  The CliqueVector arithmetic can raise KeyError, hence Option. -/
def mdUpdate {F D : Type} (ops : FactorOps F D)
    (oracle : CliqueVector F → ℚ → CliqueVector F)
    (lossFn : MarginalLossFn F) (known_total : ℚ) (stepsize : Option ℚ)
    (theta : CliqueVector F) (alpha : ℚ) :
    Option (CliqueVector F × ℚ × ℚ × CliqueVector F) := do
  let mu := oracle theta known_total
  let loss := lossFn.val mu
  let dL := lossFn.grad mu
  let theta2 ← CliqueVector.sub ops theta (CliqueVector.smul ops alpha dL)
  match stepsize with
  | some _ => return (theta2, loss, alpha, mu)
  | none =>
      let mu2 := oracle theta2 known_total
      let loss2 := lossFn.val mu2
      let d ← CliqueVector.sub ops mu mu2
      let dotval ← CliqueVector.dot ops dL d
      let sufficient_decrease := loss - loss2 ≥ 1/2 * alpha * dotval
      return (if sufficient_decrease then theta2 else theta,
              if sufficient_decrease then loss2 else loss,
              if sufficient_decrease then alpha else 1/2 * alpha,
              mu)

/-- The iteration loop of `mirror_descent`: exactly the given number of calls
to the update, threading potentials and alpha (the returned loss and marginals
of a step are re-bound each iteration and only consumed by the callback). -/
def mdLoop {F D : Type} (ops : FactorOps F D)
    (oracle : CliqueVector F → ℚ → CliqueVector F)
    (lossFn : MarginalLossFn F) (known_total : ℚ) (stepsize : Option ℚ) :
    ℕ → CliqueVector F × ℚ → Option (CliqueVector F × ℚ)
  | 0, s => some s
  | n + 1, s => do
      let r ← mdUpdate ops oracle lossFn known_total stepsize s.1 s.2
      mdLoop ops oracle lossFn known_total stepsize n (r.1, r.2.2.1)

/-- Translation of `mirror_descent` from estimation.py.  The marginal oracle
is the function parameter it is in the source (defaulting there to the
external message passing routine); alpha starts at 2 when no stepsize is
configured, and the model is rebuilt from the final potentials. -/
def mirror_descent {F D : Type} (ops : FactorOps F D)
    (flm : List LinearMeasurement → MarginalLossFn F)
    (oracle : CliqueVector F → ℚ → CliqueVector F)
    (domain : D) (lossArg : List LinearMeasurement ⊕ MarginalLossFn F)
    (known_total : Option ℚ) (potentials : Option (CliqueVector F))
    (iters : ℕ) (stepsize : Option ℚ) : Option (GraphicalModel F) := do
  let (lossFn, total, theta0) ←
    initializeEstimation ops flm domain lossArg known_total potentials
  let alpha0 : ℚ := match stepsize with | none => 2 | some s => s
  let (thetaF, _) ← mdLoop ops oracle lossFn total stepsize iters (theta0, alpha0)
  let marginals := oracle thetaF total
  return ⟨thetaF, marginals, total⟩

/-! AIM mechanism, from src/mechanisms/aim_simple.py. -/

/-- Environment of external collaborators consumed by AIM: numeric primitives
(the square root function and pi of the numerics library), the noise
generator (indexed by a call counter, receiving sigma and the requested size,
as `prng.normal(0, sigma, size)` does), the exponential-mechanism sampler of
the Mechanism base class, the marginal oracle, the measurement-to-loss
builder, exact variable elimination, the junction-tree cost oracle (the
composition of `make_junction_tree` and `maximal_cliques`), the synthetic-data
sampler, the default query operator of LinearMeasurement, the dataset
projection composed with `datavector`, the dataset domain, and the number of
attributes of a domain. -/
structure AimEnv (F D S : Type) where
  ops : FactorOps F D
  sqrtFn : ℚ → ℚ
  piQ : ℚ
  normal : ℕ → ℚ → ℕ → List ℚ
  expMech : List (Clique × ℚ) → ℚ → ℚ → Clique
  marginalOracle : CliqueVector F → ℚ → CliqueVector F
  flm : List LinearMeasurement → MarginalLossFn F
  variableElim : CliqueVector F → Clique → ℚ → F
  maximalCliques : D → List Clique → List Clique
  sampler : GraphicalModel F → ℚ → S
  defaultQuery : List ℚ → Option (List ℚ)
  dataVec : Clique → List ℚ
  dataDomain : D
  domLen : D → ℕ

/-- Mutable state of one AIM mechanism instance: the zCDP budget accumulator
`rho_used` and the count of noise draws made so far (which indexes the
pseudo-random noise stream). -/
structure MechState where
  rhoUsed : ℚ
  ctr : ℕ

/-- Translation of `hypothetical_model_size`: total cell count of the
junction-tree maximal cliques, in megabytes at 8 bytes per cell. -/
def hypothetical_model_size {F D S : Type} (env : AimEnv F D S)
    (domain : D) (cliques : List Clique) : ℚ :=
  let cells : ℚ := ((env.maximalCliques domain cliques).map
    (fun cl => (env.ops.domSize domain cl : ℚ))).sum
  cells * 8 / 2 ^ 20

/-- Translation of `filter_candidates`: keep a candidate when the hypothetical
model extended with it stays within the size limit, or when the candidate is
already inside the downward closure of the model cliques.  Computing
`model.domain` can raise (empty vector or merge conflict), hence Option. -/
def filter_candidates {F D S : Type} (env : AimEnv F D S)
    (candidates : List (Clique × ℚ)) (model : GraphicalModel F)
    (size_limit : ℚ) : Option (List (Clique × ℚ)) := do
  let md ← CliqueVector.domainOf env.ops model.potentials
  let modelCliques := CliqueVector.cliquesOf model.potentials
  let free_cliques := downward_closure modelCliques
  return candidates.filter (fun p =>
    decide (hypothetical_model_size env md (modelCliques ++ [p.1]) ≤ size_limit) ||
    free_cliques.contains p.1)

/-- L1 distance between two flat vectors, `np.linalg.norm(x - xest, 1)`;
a shape mismatch raises in numpy, hence Option. -/
def l1diff (x xest : List ℚ) : Option ℚ :=
  if x.length = xest.length
  then some ((List.zipWith (fun a b => |a - b|) x xest).sum)
  else none

/-- Translation of `AIM.worst_approximated`: noise-corrected weighted L1
errors per candidate, then one exponential-mechanism selection with epsilon
sqrt(8 rho) and sensitivity the largest absolute weight (`max` raises on an
empty candidate set, hence Option). -/
def worst_approximated {F D S : Type} (env : AimEnv F D S)
    (candidates : List (Clique × ℚ)) (answers : Clique → List ℚ)
    (model : GraphicalModel F) (rho : ℚ) : Option Clique := do
  let sigma := env.sqrtFn (1 / (2 * rho))
  let md ← CliqueVector.domainOf env.ops model.potentials
  let errors ← candidates.mapM (fun p => do
    let x := answers p.1
    let bias := env.sqrtFn (2 / env.piQ) * sigma * (env.ops.domSize md p.1 : ℚ)
    let xest := env.ops.fdata
      (GraphicalModel.project env.ops env.variableElim model p.1)
    let l1 ← l1diff x xest
    return (p.1, p.2 * (l1 - bias)))
  let sensitivity := candidates.map (fun p => |p.2|)
  match sensitivity.max? with
  | none => none
  | some max_sensitivity =>
      return env.expMech errors (env.sqrtFn (8 * rho)) max_sensitivity

/-- Translation of `AIM.zcdp_gaussian_mech`: increment the budget accumulator
by rho, then add Gaussian noise of scale sqrt(sensitivity^2 / (2 rho)) drawn
from the external noise stream at the current draw index. -/
def zcdp_gaussian_mech {F D S : Type} (env : AimEnv F D S) (st : MechState)
    (val : List ℚ) (sensitivity rho : ℚ) : MechState × List ℚ :=
  let st' : MechState := ⟨st.rhoUsed + rho, st.ctr + 1⟩
  let sigma := env.sqrtFn (sensitivity ^ 2 / (2 * rho))
  (st', List.zipWith (· + ·) val (env.normal st.ctr sigma val.length))

/-- Modelled from the spec: `CliqueVector.expand`, the warm-start expansion
used at `model.potentials.expand(pcliques)` in `AIM.run`, is absent from the
sources in scope; the spec states that the prior potentials are expanded onto
the clique set implied by all measurements so far via the combine operation
of the clique algebra, so the model builds a zero vector over the target
cliques on the merged domain of the vector itself and combines the existing
potentials into it. -/
def CliqueVector.expand {F D : Type} (ops : FactorOps F D)
    (V : CliqueVector F) (cliques : List Clique) : Option (CliqueVector F) := do
  let d ← CliqueVector.domainOf ops V
  return CliqueVector.combine ops (CliqueVector.zeros ops d cliques) V

/-- One adaptive round of `AIM.run`: size-budget filtering, exponential-
mechanism selection, Gaussian measurement (note that the recorded standard
deviation is computed from `rho_oneway_i`, exactly as the source does on line
160), warm-started refit by mirror descent. -/
def aimRound {F D S : Type} (env : AimEnv F D S)
    (rho maxModelSize : ℚ) (maxIters : ℕ)
    (candidates : List (Clique × ℚ)) (answers : Clique → List ℚ)
    (rho_oneway_i rho_iters_i : ℚ)
    (s : MechState × List LinearMeasurement × GraphicalModel F) :
    Option (MechState × List LinearMeasurement × GraphicalModel F) := do
  let st := s.1
  let measurements := s.2.1
  let model := s.2.2
  let size_limit := maxModelSize * st.rhoUsed / rho
  let small_candidates ← filter_candidates env candidates model size_limit
  let cl ← worst_approximated env small_candidates answers model (rho_iters_i / 2)
  let _n := env.ops.domSize env.dataDomain cl
  let x := env.dataVec cl
  let sy := zcdp_gaussian_mech env st x 1 (rho_iters_i / 2)
  let st' := sy.1
  let y := sy.2
  let std := env.sqrtFn (1 / (2 * rho_oneway_i))
  let measurements' := measurements ++ [⟨y, cl, env.defaultQuery, std⟩]
  let pcliques := dedupFirst (measurements'.map (fun M => M.clique))
  let potentials ← CliqueVector.expand env.ops model.potentials pcliques
  let model' ← mirror_descent env.ops env.flm env.marginalOracle env.dataDomain
    (Sum.inl measurements') none (some potentials) maxIters none
  return (st', measurements', model')

/-- The `for t in range(iterations)` loop of `AIM.run` (the index is only
printed by the source). -/
def aimLoop {F D S : Type} (env : AimEnv F D S)
    (rho maxModelSize : ℚ) (maxIters : ℕ)
    (candidates : List (Clique × ℚ)) (answers : Clique → List ℚ)
    (rho_oneway_i rho_iters_i : ℚ) :
    ℕ → MechState × List LinearMeasurement × GraphicalModel F →
    Option (MechState × List LinearMeasurement × GraphicalModel F)
  | 0, s => some s
  | k + 1, s => do
      let s' ← aimRound env rho maxModelSize maxIters candidates answers
        rho_oneway_i rho_iters_i s
      aimLoop env rho maxModelSize maxIters candidates answers
        rho_oneway_i rho_iters_i k s'

/-- Body of the initial one-way measurement loop of `AIM.run`: measure one
clique with the Gaussian mechanism at the per-clique one-way allocation and
append the LinearMeasurement carrying the matching standard deviation. -/
def onewayStep {F D S : Type} (env : AimEnv F D S) (rho_oneway_i : ℚ)
    (acc : MechState × List LinearMeasurement) (cl : Clique) :
    MechState × List LinearMeasurement :=
  let x := env.dataVec cl
  let sy := zcdp_gaussian_mech env acc.1 x 1 rho_oneway_i
  let std := env.sqrtFn (1 / (2 * rho_oneway_i))
  (sy.1, acc.2 ++ [⟨sy.2, cl, env.defaultQuery, std⟩])

/-- Everything `AIM.run` produces or leaves behind: the returned model and
synthetic data, the final mechanism state (the mutated `rho_used` and noise
draw count), and the accumulated measurement list. -/
structure RunOutput (F S : Type) where
  model : GraphicalModel F
  synth : S
  state : MechState
  measurements : List LinearMeasurement

/-- Translation of `AIM.run`.  `rho` is the total budget the external base
class derives from (epsilon, delta); `rounds` is the constructor argument
(`self.rounds`), whose default combination `self.rounds or 16*len(domain)` is
computed and, like in the source, never used afterwards.  Python raises
ZeroDivisionError when there is no one-way candidate or when the workload
yields zero adaptive iterations; both become none.  The source also binds
`zeros = self.structural_zeros` without using it. -/
def AIM_run {F D S : Type} (env : AimEnv F D S)
    (rho : ℚ) (rounds : Option ℕ) (maxModelSize : ℚ) (maxIters : ℕ)
    (workload : List (Clique × ℚ)) (num_synth_rows : Option ℕ)
    (initial_cliques : Option (List Clique)) : Option (RunOutput F S) := do
  let _rounds := rounds.getD (16 * env.domLen env.dataDomain)
  let candidates := compile_workload workload
  let answers : Clique → List ℚ := env.dataVec
  let rho_oneway := rho * (5 / 100)
  let rho_iterations := rho * (95 / 100)
  let oneway := (candidates.map Prod.fst).filter (fun cl => cl.length = 1)
  let initial := match initial_cliques with
    | none => oneway
    | some [] => oneway
    | some l => l
  if oneway.length = 0 then none else do
  let rho_oneway_i := rho_oneway / (oneway.length : ℚ)
  let sm1 := initial.foldl (onewayStep env rho_oneway_i) (⟨0, 0⟩, [])
  let model1 ← mirror_descent env.ops env.flm env.marginalOracle env.dataDomain
    (Sum.inl sm1.2) none none maxIters none
  let iterations := workload.length / 4
  if iterations = 0 then none else do
  let rho_iters_i := rho_iterations / (iterations : ℚ)
  let s2 ← aimLoop env rho maxModelSize maxIters candidates
    answers rho_oneway_i rho_iters_i iterations (sm1.1, sm1.2, model1)
  let finalModel ← mirror_descent env.ops env.flm env.marginalOracle
    env.dataDomain (Sum.inl s2.2.1) none none maxIters none
  let rows : ℚ := match num_synth_rows with
    | none => finalModel.total
    | some 0 => finalModel.total
    | some n => (n : ℚ)
  let synth := env.sampler finalModel rows
  return ⟨finalModel, synth, s2.1, s2.2.1⟩

/-! Concrete instantiations of the abstract collaborators, used to evaluate
the embedded code on closed inputs.  Factors are single rationals, domains and
synthetic outputs are trivial; the numeric square root is instantiated with
the identity, which is legitimate because every property proved over the
abstract environment holds for every choice of these functions. -/

/-- A concrete factor algebra on ℚ with a trivial one-point domain. -/
def qOps : FactorOps ℚ Unit where
  fzeros := fun _ => 0
  fadd := (· + ·)
  fscale := (· * ·)
  fmul := (· * ·)
  fsum := fun f => f
  fproject := fun f _ => f
  fdata := fun f => [f]
  fdomain := fun _ => ()
  domProject := fun _ _ => ()
  domMerge := fun _ _ => some ()
  domSize := fun _ _ => 1

/-- A concrete AIM environment over the trivial factor algebra: identity
square root, zero noise, an exponential mechanism that returns the first
candidate, an identity marginal oracle, and a loss builder with constant
value and identity gradient over the measurement cliques. -/
def wEnv : AimEnv ℚ Unit Unit where
  ops := qOps
  sqrtFn := fun q => q
  piQ := 3
  normal := fun _ _ n => List.replicate n 0
  expMech := fun cands _ _ => ((cands.head?).map Prod.fst).getD []
  marginalOracle := fun cv _ => cv
  flm := fun ms =>
    ⟨dedupFirst (ms.map (fun M => M.clique)), fun _ => 0, fun cv => cv⟩
  variableElim := fun _ _ _ => 0
  maximalCliques := fun _ cls => cls
  sampler := fun _ _ => ()
  defaultQuery := fun y => some y
  dataVec := fun _ => [1]
  dataDomain := ()
  domLen := fun _ => 2

/-- A four-entry workload over two attributes, giving one adaptive round. -/
def wWorkload : List (Clique × ℚ) := [([0], 1), ([1], 1), ([0, 1], 1), ([0, 1], 2)]

/-- Fallback output used to extract the result of a completed concrete run. -/
def wDefaultOut : RunOutput ℚ Unit := ⟨⟨[], [], 1⟩, (), ⟨0, 0⟩, []⟩

/-- The output of the concrete AIM run on `wWorkload` with total budget 1,
model size limit 80 and zero optimizer iterations. -/
def wOut : RunOutput ℚ Unit :=
  (AIM_run wEnv 1 none 80 0 wWorkload none none).getD wDefaultOut

/-! Helper lemmas about the clique vector algebra. -/

theorem cvProject_eq_find {F D : Type} (ops : FactorOps F D)
    (V : CliqueVector F) (c : Clique) :
    CliqueVector.project ops V c =
      match V.find? (fun p => subsetC c p.1) with
      | some q => Except.ok (ops.fproject q.2 c)
      | none => Except.error "Cannot project" := by
  induction V with
  | nil => rfl
  | cons hd tl ih =>
      obtain ⟨cl, f⟩ := hd
      by_cases h : subsetC c cl
      · simp [CliqueVector.project, h, List.find?_cons_of_pos]
      · simp only [Bool.not_eq_true] at h
        simp [CliqueVector.project, h, List.find?_cons_of_neg, ih]

theorem cvAddToFirst_of_no_cover {F D : Type} (ops : FactorOps F D)
    (V : CliqueVector F) (c : Clique) (f : F)
    (h : ∀ p ∈ V, ¬ subsetC c p.1 = true) :
    CliqueVector.addToFirst ops V c f = V := by
  induction V with
  | nil => rfl
  | cons hd tl ih =>
      obtain ⟨cl, g⟩ := hd
      have h1 : ¬ subsetC c cl = true := h (cl, g) (by simp)
      simp only [CliqueVector.addToFirst, if_neg h1, List.cons.injEq, true_and]
      exact ih (fun p hp => h p (List.mem_cons_of_mem _ hp))

theorem cvAddToFirst_first_cover {F D : Type} (ops : FactorOps F D)
    (L1 L2 : CliqueVector F) (c : Clique) (f : F) (cl : Clique) (g : F)
    (h1 : ∀ p ∈ L1, ¬ subsetC c p.1 = true) (h2 : subsetC c cl = true) :
    CliqueVector.addToFirst ops (L1 ++ (cl, g) :: L2) c f =
      L1 ++ (cl, ops.fadd g f) :: L2 := by
  induction L1 with
  | nil => simp [CliqueVector.addToFirst, h2]
  | cons hd tl ih =>
      obtain ⟨cl1, g1⟩ := hd
      have hn : ¬ subsetC c cl1 = true := h1 (cl1, g1) (by simp)
      simp only [List.cons_append, CliqueVector.addToFirst, if_neg hn,
        List.cons.injEq, true_and]
      exact ih (fun p hp => h1 p (List.mem_cons_of_mem _ hp))

theorem cvAddToFirst_cliques {F D : Type} (ops : FactorOps F D)
    (V : CliqueVector F) (c : Clique) (f : F) :
    CliqueVector.cliquesOf (CliqueVector.addToFirst ops V c f) =
      CliqueVector.cliquesOf V := by
  induction V with
  | nil => rfl
  | cons hd tl ih =>
      obtain ⟨cl, g⟩ := hd
      by_cases h : subsetC c cl
      · simp [CliqueVector.addToFirst, h, CliqueVector.cliquesOf]
      · simp only [Bool.not_eq_true] at h
        simp [CliqueVector.addToFirst, h, CliqueVector.cliquesOf] at ih ⊢
        exact ih

theorem cvCombine_cliques {F D : Type} (ops : FactorOps F D)
    (V W : CliqueVector F) :
    CliqueVector.cliquesOf (CliqueVector.combine ops V W) =
      CliqueVector.cliquesOf V := by
  induction W generalizing V with
  | nil => rfl
  | cons hd tl ih =>
      simp only [CliqueVector.combine, List.foldl_cons] at ih ⊢
      rw [ih, cvAddToFirst_cliques]

theorem cvCombine_of_no_cover {F D : Type} (ops : FactorOps F D)
    (V W : CliqueVector F)
    (h : ∀ p ∈ W, ∀ q ∈ V, ¬ subsetC p.1 q.1 = true) :
    CliqueVector.combine ops V W = V := by
  induction W generalizing V with
  | nil => rfl
  | cons hd tl ih =>
      simp only [CliqueVector.combine, List.foldl_cons] at ih ⊢
      rw [cvAddToFirst_of_no_cover ops V hd.1 hd.2 (h hd (by simp))]
      exact ih V (fun p hp q hq => h p (List.mem_cons_of_mem _ hp) q hq)

theorem cvLookup_isSome {F : Type} (W : CliqueVector F) (c : Clique) :
    (CliqueVector.lookup W c).isSome = true ↔ c ∈ CliqueVector.cliquesOf W := by
  induction W with
  | nil => simp [CliqueVector.lookup, CliqueVector.cliquesOf]
  | cons hd tl ih =>
      by_cases h : hd.1 = c
      · simp [CliqueVector.lookup, h, CliqueVector.cliquesOf]
      · simp only [CliqueVector.lookup, if_neg h, CliqueVector.cliquesOf,
          List.map_cons, List.mem_cons] at ih ⊢
        rw [ih]
        have : ¬ c = hd.1 := fun hc => h hc.symm
        simp [this]

theorem cvAdd_isSome {F D : Type} (ops : FactorOps F D)
    (V W : CliqueVector F) :
    (CliqueVector.add ops V W).isSome = true ↔
      ∀ c ∈ CliqueVector.cliquesOf V, c ∈ CliqueVector.cliquesOf W := by
  induction V with
  | nil => simp [CliqueVector.add, CliqueVector.cliquesOf]
  | cons hd tl ih =>
      have hkeys : CliqueVector.cliquesOf (hd :: tl) =
          hd.1 :: CliqueVector.cliquesOf tl := rfl
      rw [hkeys, List.forall_mem_cons, ← ih]
      cases hl : CliqueVector.lookup W hd.1 with
      | none =>
          have hni : hd.1 ∉ CliqueVector.cliquesOf W := by
            intro hmem
            rw [← cvLookup_isSome, hl] at hmem
            simp at hmem
          refine iff_of_false ?_ ?_
          · simp [CliqueVector.add, hl]
          · rintro ⟨h1, _⟩; exact hni h1
      | some g =>
          have hmem : hd.1 ∈ CliqueVector.cliquesOf W := by
            rw [← cvLookup_isSome, hl]; rfl
          simp only [CliqueVector.add, hl, eq_true hmem, true_and]
          cases ha : CliqueVector.add ops tl W with
          | none => simp
          | some t => simp

theorem cvSmul_cliques {F D : Type} (ops : FactorOps F D) (q : ℚ)
    (W : CliqueVector F) :
    CliqueVector.cliquesOf (CliqueVector.smul ops q W) =
      CliqueVector.cliquesOf W := by
  simp [CliqueVector.smul, CliqueVector.cliquesOf]

theorem cvSub_isSome {F D : Type} (ops : FactorOps F D)
    (V W : CliqueVector F) :
    (CliqueVector.sub ops V W).isSome = true ↔
      ∀ c ∈ CliqueVector.cliquesOf V, c ∈ CliqueVector.cliquesOf W := by
  rw [CliqueVector.sub, cvAdd_isSome, cvSmul_cliques]

theorem cvDot_isSome {F D : Type} (ops : FactorOps F D)
    (V W : CliqueVector F) :
    (CliqueVector.dot ops V W).isSome = true ↔
      ∀ c ∈ CliqueVector.cliquesOf V, c ∈ CliqueVector.cliquesOf W := by
  induction V with
  | nil => simp [CliqueVector.dot, CliqueVector.cliquesOf]
  | cons hd tl ih =>
      have hkeys : CliqueVector.cliquesOf (hd :: tl) =
          hd.1 :: CliqueVector.cliquesOf tl := rfl
      rw [hkeys, List.forall_mem_cons, ← ih]
      cases hl : CliqueVector.lookup W hd.1 with
      | none =>
          have hni : hd.1 ∉ CliqueVector.cliquesOf W := by
            intro hmem
            rw [← cvLookup_isSome, hl] at hmem
            simp at hmem
          refine iff_of_false ?_ ?_
          · simp [CliqueVector.dot, hl]
          · rintro ⟨h1, _⟩; exact hni h1
      | some g =>
          have hmem : hd.1 ∈ CliqueVector.cliquesOf W := by
            rw [← cvLookup_isSome, hl]; rfl
          simp only [CliqueVector.dot, hl, eq_true hmem, true_and]
          cases ha : CliqueVector.dot ops tl W with
          | none => simp
          | some t => simp

/-- C7: for every CliqueVector V and clique c, if c is a set subset of some
stored key then `project` returns the projection onto c of the factor stored
at the first such key in iteration order, and it fails with the coverage
error exactly when no stored key is a superset of c. -/
theorem cliquevector_project_first_cover {F D : Type} (ops : FactorOps F D)
    (V : CliqueVector F) (c : Clique) :
    (∀ q, V.find? (fun p => subsetC c p.1) = some q →
        CliqueVector.project ops V c = Except.ok (ops.fproject q.2 c))
    ∧ (V.find? (fun p => subsetC c p.1) = none →
        CliqueVector.project ops V c = Except.error "Cannot project")
    ∧ ((∃ f, CliqueVector.project ops V c = Except.ok f) ↔
        ∃ p ∈ V, subsetC c p.1 = true) := by
  refine ⟨?_, ?_, ?_⟩
  · intro q hq; rw [cvProject_eq_find, hq]
  · intro hq; rw [cvProject_eq_find, hq]
  · rw [cvProject_eq_find]
    cases hf : V.find? (fun p => subsetC c p.1) with
    | none =>
        refine iff_of_false ?_ ?_
        · rintro ⟨f, h⟩; simp at h
        · rintro ⟨p, hp, hs⟩
          rw [List.find?_eq_none] at hf
          exact absurd hs (by simpa using hf p hp)
    | some q =>
        have hq : subsetC c q.1 = true := by simpa using List.find?_some hf
        exact iff_of_true ⟨ops.fproject q.2 c, rfl⟩
          ⟨q, List.mem_of_find?_eq_some hf, hq⟩

/-- Witness for the coverage claim: on a concrete vector the first covering
key in iteration order wins, and an uncovered query yields the error. -/
theorem cliquevector_project_first_cover_witness :
    CliqueVector.project qOps [([0, 1], (5 : ℚ)), ([1], 7)] [1] =
      Except.ok (qOps.fproject 5 [1]) ∧
    CliqueVector.project qOps [([0, 1], (5 : ℚ)), ([1], 7)] [2] =
      Except.error "Cannot project" :=
  ⟨(cliquevector_project_first_cover qOps [([0, 1], 5), ([1], 7)] [1]).1
      ([0, 1], 5) rfl,
   (cliquevector_project_first_cover qOps [([0, 1], 5), ([1], 7)] [2]).2.1 rfl⟩

/-- C8: combine adds each clique of the other vector into the first stored
key covering it, silently ignores cliques with no covering key, never changes
the receiver key set, and in particular combining a zero vector over the key
pair 0,1 with a vector over the unrelated singleton key 2 leaves the receiver
unchanged.  The operation is a total function, so it never raises. -/
theorem cliquevector_combine_spec {F D : Type} (ops : FactorOps F D) :
    (∀ (V : CliqueVector F) (c : Clique) (f : F),
        (∀ p ∈ V, ¬ subsetC c p.1 = true) →
        CliqueVector.addToFirst ops V c f = V)
    ∧ (∀ (L1 L2 : CliqueVector F) (c : Clique) (f : F) (cl : Clique) (g : F),
        (∀ p ∈ L1, ¬ subsetC c p.1 = true) → subsetC c cl = true →
        CliqueVector.addToFirst ops (L1 ++ (cl, g) :: L2) c f =
          L1 ++ (cl, ops.fadd g f) :: L2)
    ∧ (∀ V W : CliqueVector F,
        CliqueVector.cliquesOf (CliqueVector.combine ops V W) =
          CliqueVector.cliquesOf V)
    ∧ (∀ V W : CliqueVector F,
        (∀ p ∈ W, ∀ q ∈ V, ¬ subsetC p.1 q.1 = true) →
        CliqueVector.combine ops V W = V)
    ∧ (∀ (d : D) (w : F),
        CliqueVector.combine ops (CliqueVector.zeros ops d [[0, 1]]) [([2], w)] =
          CliqueVector.zeros ops d [[0, 1]]) := by
  refine ⟨cvAddToFirst_of_no_cover ops, cvAddToFirst_first_cover ops,
    cvCombine_cliques ops, cvCombine_of_no_cover ops, ?_⟩
  intro d w
  apply cvCombine_of_no_cover
  have hz : CliqueVector.zeros ops d [[0, 1]] =
      [([0, 1], ops.fzeros (ops.domProject d [0, 1]))] := rfl
  rw [hz]
  rintro p hp q hq
  simp only [List.mem_singleton] at hp hq
  subst hp
  subst hq
  exact (by decide : ¬ subsetC [2] [0, 1] = true)

/-- Witness for the combine claim: the concrete drop rule instance and an
uncovered single step, both on the rational factor algebra. -/
theorem cliquevector_combine_spec_witness :
    CliqueVector.combine qOps (CliqueVector.zeros qOps () [[0, 1]]) [([2], 5)] =
      CliqueVector.zeros qOps () [[0, 1]] ∧
    CliqueVector.addToFirst qOps [([0, 1], (0 : ℚ))] [2] 5 = [([0, 1], 0)] :=
  ⟨(cliquevector_combine_spec qOps).2.2.2.2 () 5,
   (cliquevector_combine_spec qOps).1 [([0, 1], 0)] [2] 5 (by decide)⟩

/-- C9 counterexample: two CliqueVectors whose key sets differ (the right one
has the extra key 1) on which add, sub and dot all succeed, refuting the claim
that these operations fail whenever the key sets differ. -/
theorem cliquevector_binop_differing_keys_succeed :
    ([1] ∈ CliqueVector.cliquesOf [([0], (1 : ℚ)), ([1], 2)])
    ∧ ([1] ∉ CliqueVector.cliquesOf [([0], (1 : ℚ))])
    ∧ (CliqueVector.add qOps [([0], (1 : ℚ))] [([0], 1), ([1], 2)]).isSome = true
    ∧ (CliqueVector.sub qOps [([0], (1 : ℚ))] [([0], 1), ([1], 2)]).isSome = true
    ∧ (CliqueVector.dot qOps [([0], (1 : ℚ))] [([0], 1), ([1], 2)]).isSome = true := by
  decide

/-- C9 amended: add, sub and dot succeed exactly when every key of the left
operand is present in the right operand; they fail (KeyError) exactly when
some left key is missing on the right, so key sets that differ only by extra
right-operand keys still succeed. -/
theorem cliquevector_binop_key_requirement {F D : Type} (ops : FactorOps F D)
    (V W : CliqueVector F) :
    ((CliqueVector.add ops V W).isSome = true ↔
      ∀ c ∈ CliqueVector.cliquesOf V, c ∈ CliqueVector.cliquesOf W)
    ∧ ((CliqueVector.sub ops V W).isSome = true ↔
      ∀ c ∈ CliqueVector.cliquesOf V, c ∈ CliqueVector.cliquesOf W)
    ∧ ((CliqueVector.dot ops V W).isSome = true ↔
      ∀ c ∈ CliqueVector.cliquesOf V, c ∈ CliqueVector.cliquesOf W) :=
  ⟨cvAdd_isSome ops V W, cvSub_isSome ops V W, cvDot_isSome ops V W⟩

/-- C5 counterexample: the two identity measurements with sums 100 and 110 and
standard deviations 2 and 4 combine to exactly 102, while the claim asserts
approximately 102.35; the discrepancy is 0.35, far beyond the precision the
two-decimal figure conveys. -/
theorem mvu_total_example_not_102_35 :
    minimum_variance_unbiased_total
      [⟨[100], [0], fun y => some y, 2⟩, ⟨[110], [1], fun y => some y, 4⟩] = 102
    ∧ |(10235 / 100 : ℚ) - 102| = 7 / 20
    ∧ ((102 : ℚ) ≠ 10235 / 100) := by
  decide

/-- C5 amended: the total estimator keeps the measurements whose query acts as
the identity on the noisy value, returns exactly 1 when none qualifies,
otherwise combines the qualifying sums with inverse-variance weights and
floors the result at 1; the two example measurements combine to exactly
102.0. -/
theorem minimum_variance_unbiased_total_spec (ms : List LinearMeasurement) :
    (mvuPairs ms = [] → minimum_variance_unbiased_total ms = 1)
    ∧ (mvuPairs ms ≠ [] →
        minimum_variance_unbiased_total ms =
          max 1 ((1 / ((mvuPairs ms).map (fun p => 1 / p.2)).sum) *
                 ((mvuPairs ms).map (fun p => p.1 / p.2)).sum))
    ∧ 1 ≤ minimum_variance_unbiased_total ms
    ∧ minimum_variance_unbiased_total
        [⟨[100], [0], fun y => some y, 2⟩, ⟨[110], [1], fun y => some y, 4⟩] = 102 := by
  refine ⟨?_, ?_, ?_, by decide⟩
  · intro h
    simp [minimum_variance_unbiased_total, h]
  · intro h
    have hlen : ¬ (mvuPairs ms).length = 0 := by simpa using h
    simp [minimum_variance_unbiased_total, hlen]
  · unfold minimum_variance_unbiased_total
    by_cases h : (mvuPairs ms).length = 0
    · simp [h]
    · simp only [h, if_false]
      exact le_max_left 1 _

/-- Witness for the amended total estimator claim: the empty list returns
exactly 1, the two example measurements hit the inverse-variance branch, and
the floor holds on them. -/
theorem minimum_variance_unbiased_total_spec_witness :
    minimum_variance_unbiased_total ([] : List LinearMeasurement) = 1
    ∧ minimum_variance_unbiased_total
        [⟨[100], [0], fun y => some y, 2⟩, ⟨[110], [1], fun y => some y, 4⟩] =
      max 1 ((1 / ((mvuPairs
          [⟨[100], [0], fun y => some y, 2⟩, ⟨[110], [1], fun y => some y, 4⟩]).map
            (fun p => 1 / p.2)).sum) *
        ((mvuPairs
          [⟨[100], [0], fun y => some y, 2⟩, ⟨[110], [1], fun y => some y, 4⟩]).map
            (fun p => p.1 / p.2)).sum)
    ∧ (1 : ℚ) ≤ minimum_variance_unbiased_total
        [⟨[100], [0], fun y => some y, 2⟩, ⟨[110], [1], fun y => some y, 4⟩] :=
  ⟨(minimum_variance_unbiased_total_spec []).1 rfl,
   (minimum_variance_unbiased_total_spec _).2.1 (by decide),
   (minimum_variance_unbiased_total_spec
      [⟨[100], [0], fun y => some y, 2⟩, ⟨[110], [1], fun y => some y, 4⟩]).2.2.1⟩

/-! Helper lemmas about the downward closure and workload compilation. -/

theorem mem_insertByLen (a b : Clique) (l : List Clique) :
    b ∈ insertByLen a l ↔ b = a ∨ b ∈ l := by
  induction l with
  | nil => simp [insertByLen]
  | cons hd tl ih =>
      by_cases h : a.length < hd.length
      · simp [insertByLen, h]
      · simp only [insertByLen, if_neg h, List.mem_cons, ih]
        tauto

theorem sorted_insertByLen (a : Clique) (l : List Clique)
    (h : List.Sorted (fun x y : Clique => x.length ≤ y.length) l) :
    List.Sorted (fun x y : Clique => x.length ≤ y.length) (insertByLen a l) := by
  induction l with
  | nil => simp [insertByLen]
  | cons hd tl ih =>
      rw [List.sorted_cons] at h
      by_cases hlt : a.length < hd.length
      · rw [insertByLen, if_pos hlt, List.sorted_cons]
        constructor
        · intro b hb
          rcases List.mem_cons.mp hb with rfl | hb
          · exact le_of_lt hlt
          · exact le_trans (le_of_lt hlt) (h.1 b hb)
        · rw [List.sorted_cons]; exact h
      · rw [insertByLen, if_neg hlt, List.sorted_cons]
        constructor
        · intro b hb
          rcases (mem_insertByLen a b tl).mp hb with rfl | hb
          · exact le_of_not_lt hlt
          · exact h.1 b hb
        · exact ih h.2

theorem mem_sortByLen_aux (l acc : List Clique) (c : Clique) :
    c ∈ l.foldl (fun acc a => insertByLen a acc) acc ↔ c ∈ acc ∨ c ∈ l := by
  induction l generalizing acc with
  | nil => simp
  | cons hd tl ih =>
      rw [List.foldl_cons, ih, mem_insertByLen]
      simp
      tauto

theorem mem_sortByLen (l : List Clique) (c : Clique) :
    c ∈ sortByLen l ↔ c ∈ l := by
  rw [sortByLen, mem_sortByLen_aux]
  simp

theorem sorted_sortByLen_aux (l acc : List Clique)
    (h : List.Sorted (fun x y : Clique => x.length ≤ y.length) acc) :
    List.Sorted (fun x y : Clique => x.length ≤ y.length)
      (l.foldl (fun acc a => insertByLen a acc) acc) := by
  induction l generalizing acc with
  | nil => exact h
  | cons hd tl ih => exact ih _ (sorted_insertByLen hd acc h)

theorem sorted_sortByLen (l : List Clique) :
    List.Sorted (fun x y : Clique => x.length ≤ y.length) (sortByLen l) :=
  sorted_sortByLen_aux l [] (by simp)

theorem mem_dedupFirst_aux (l acc : List Clique) (c : Clique) :
    c ∈ l.foldl (fun acc a => if a ∈ acc then acc else acc ++ [a]) acc ↔
      c ∈ acc ∨ c ∈ l := by
  induction l generalizing acc with
  | nil => simp
  | cons hd tl ih =>
      rw [List.foldl_cons, ih]
      by_cases h : hd ∈ acc
      · rw [if_pos h]
        simp only [List.mem_cons]
        constructor
        · tauto
        · rintro (hc | rfl | hc) <;> tauto
      · rw [if_neg h]
        simp only [List.mem_append, List.mem_singleton, List.mem_cons]
        tauto

theorem mem_dedupFirst (l : List Clique) (c : Clique) :
    c ∈ dedupFirst l ↔ c ∈ l := by
  rw [dedupFirst, mem_dedupFirst_aux]
  simp

theorem mem_powersetL (w c : Clique) :
    c ∈ powersetL w ↔ c.Sublist w ∧ c ≠ [] := by
  rw [powersetL, List.mem_filter, List.mem_sublists]
  simp [List.isEmpty_iff]

theorem mem_downward_closure (Ws : List Clique) (c : Clique) :
    c ∈ downward_closure Ws ↔ c ≠ [] ∧ ∃ w ∈ Ws, c.Sublist w := by
  rw [downward_closure, mem_sortByLen, mem_dedupFirst, List.mem_flatten]
  constructor
  · rintro ⟨s, hs, hcs⟩
    rcases List.mem_map.mp hs with ⟨w, hw, rfl⟩
    rcases (mem_powersetL w c).mp hcs with ⟨hsub, hne⟩
    exact ⟨hne, w, hw, hsub⟩
  · rintro ⟨hne, w, hw, hsub⟩
    exact ⟨powersetL w, List.mem_map_of_mem _ hw, (mem_powersetL w c).mpr ⟨hsub, hne⟩⟩

theorem weightsOf_keys_aux (l acc : List (Clique × ℚ)) (c : Clique) :
    c ∈ (l.foldl (fun acc p =>
        if (acc.map Prod.fst).contains p.1 then
          acc.map (fun q => if q.1 = p.1 then (q.1, p.2) else q)
        else acc ++ [p]) acc).map Prod.fst ↔
      c ∈ acc.map Prod.fst ∨ c ∈ l.map Prod.fst := by
  induction l generalizing acc with
  | nil => simp
  | cons hd tl ih =>
      rw [List.foldl_cons, ih]
      by_cases h : (acc.map Prod.fst).contains hd.1
      · rw [if_pos h]
        have hkeys : (acc.map (fun q => if q.1 = hd.1 then (q.1, hd.2) else q)).map
            Prod.fst = acc.map Prod.fst := by
          rw [List.map_map]
          apply List.map_congr_left
          intro q _
          by_cases hq : q.1 = hd.1 <;> simp [hq]
        rw [hkeys]
        have hmem : hd.1 ∈ acc.map Prod.fst := by
          simpa using h
        simp only [List.map_cons, List.mem_cons]
        constructor
        · tauto
        · rintro (hc | rfl | hc) <;> tauto
      · rw [if_neg h]
        simp only [List.map_append, List.map_cons, List.map_nil, List.mem_append,
          List.mem_singleton, List.mem_cons]
        tauto

theorem weightsOf_keys (wl : List (Clique × ℚ)) (c : Clique) :
    c ∈ (weightsOf wl).map Prod.fst ↔ c ∈ wl.map Prod.fst := by
  rw [weightsOf, weightsOf_keys_aux]
  simp

/-- C6: the compiled workload is keyed exactly by the downward closure of the
workload cliques (the non-empty subsets, sorted by increasing size), each key
scored by the weighted sum of attribute overlaps with the workload cliques,
and the concrete two-attribute example compiles to scores 1, 1 and 2. -/
theorem compile_workload_spec (wl : List (Clique × ℚ)) :
    ((compile_workload wl).map Prod.fst =
        downward_closure ((weightsOf wl).map Prod.fst))
    ∧ (∀ c : Clique, c ∈ (compile_workload wl).map Prod.fst ↔
        (c ≠ [] ∧ ∃ w ∈ wl.map Prod.fst, c.Sublist w))
    ∧ List.Sorted (fun a b : Clique => a.length ≤ b.length)
        ((compile_workload wl).map Prod.fst)
    ∧ (∀ p ∈ compile_workload wl, p.2 = workloadScore (weightsOf wl) p.1)
    ∧ compile_workload [([0, 1], 1)] = [([0], 1), ([1], 1), ([0, 1], 2)] := by
  have hkeys : (compile_workload wl).map Prod.fst =
      downward_closure ((weightsOf wl).map Prod.fst) := by
    rw [compile_workload, List.map_map]
    exact List.map_id _
  refine ⟨hkeys, ?_, ?_, ?_, by decide⟩
  · intro c
    rw [hkeys, mem_downward_closure]
    constructor
    · rintro ⟨hne, w, hw, hsub⟩
      exact ⟨hne, w, (weightsOf_keys wl w).mp hw, hsub⟩
    · rintro ⟨hne, w, hw, hsub⟩
      exact ⟨hne, w, (weightsOf_keys wl w).mpr hw, hsub⟩
  · rw [hkeys, downward_closure]
    exact sorted_sortByLen _
  · intro p hp
    rw [compile_workload] at hp
    rcases List.mem_map.mp hp with ⟨cl, _, rfl⟩
    rfl

/-- Witness for the workload compilation claim: on the concrete example the
pair clique is a compiled key with score 2, and the score of every compiled
entry matches the overlap formula. -/
theorem compile_workload_spec_witness :
    ([0, 1] ∈ (compile_workload [([0, 1], 1)]).map Prod.fst ↔
      (([0, 1] : Clique) ≠ [] ∧
        ∃ w ∈ [([0, 1], (1 : ℚ))].map Prod.fst, ([0, 1] : Clique).Sublist w))
    ∧ (2 : ℚ) = workloadScore (weightsOf [([0, 1], 1)]) [0, 1]
    ∧ compile_workload [([0, 1], 1)] = [([0], 1), ([1], 1), ([0, 1], 2)] :=
  ⟨(compile_workload_spec [([0, 1], 1)]).2.1 [0, 1],
   (compile_workload_spec [([0, 1], 1)]).2.2.2.1 ([0, 1], 2) (by decide),
   (compile_workload_spec [([0, 1], 1)]).2.2.2.2⟩

/-- C3: in a line-search iteration of mirror descent (no fixed stepsize) the
candidate step is accepted, updating theta and the recorded loss, exactly when
the Armijo-style sufficient decrease holds; on rejection alpha is halved and
theta kept; the post-step alpha never exceeds the incoming alpha; and the
iteration loop performs exactly one update per configured iteration with no
early exit. -/
theorem mirror_descent_linesearch {F D : Type} (ops : FactorOps F D)
    (oracle : CliqueVector F → ℚ → CliqueVector F) (lossFn : MarginalLossFn F)
    (total alpha : ℚ) (theta theta2 d : CliqueVector F) (dotval : ℚ)
    (htheta2 : CliqueVector.sub ops theta
      (CliqueVector.smul ops alpha (lossFn.grad (oracle theta total))) = some theta2)
    (hd : CliqueVector.sub ops (oracle theta total) (oracle theta2 total) = some d)
    (hdot : CliqueVector.dot ops (lossFn.grad (oracle theta total)) d = some dotval)
    (halpha : 0 ≤ alpha) :
    (mdUpdate ops oracle lossFn total none theta alpha =
      some (if lossFn.val (oracle theta total) - lossFn.val (oracle theta2 total) ≥
              1/2 * alpha * dotval
            then (theta2, lossFn.val (oracle theta2 total), alpha, oracle theta total)
            else (theta, lossFn.val (oracle theta total), 1/2 * alpha,
              oracle theta total)))
    ∧ ((if lossFn.val (oracle theta total) - lossFn.val (oracle theta2 total) ≥
          1/2 * alpha * dotval then alpha else 1/2 * alpha) ≤ alpha)
    ∧ (∀ (n : ℕ) (s : CliqueVector F × ℚ),
        mdLoop ops oracle lossFn total none (n + 1) s =
          (mdUpdate ops oracle lossFn total none s.1 s.2).bind
            (fun r => mdLoop ops oracle lossFn total none n (r.1, r.2.2.1)))
    ∧ (∀ s : CliqueVector F × ℚ, mdLoop ops oracle lossFn total none 0 s = some s) := by
  refine ⟨?_, ?_, fun n s => rfl, fun s => rfl⟩
  · simp only [mdUpdate, htheta2, hd, hdot, Option.bind_eq_bind, Option.some_bind]
    split_ifs <;> rfl
  · split_ifs
    · exact le_refl alpha
    · linarith

/-- Witness for the line-search claim: a concrete rejected step halves alpha
from 2 to 1 and keeps theta, and the zero-iteration loop is the identity. -/
theorem mirror_descent_linesearch_witness :
    mdUpdate qOps (fun v _ => v) ⟨[], fun _ => 0, fun v => v⟩ 1 none [([0], 1)] 2 =
      some ([([0], 1)], 0, 1, [([0], 1)])
    ∧ mdLoop qOps (fun v _ => v) ⟨[], fun _ => 0, fun v => v⟩ 1 none 0
        ([([0], 1)], 2) = some ([([0], 1)], 2) := by
  have h := mirror_descent_linesearch qOps (fun v _ => v) ⟨[], fun _ => 0, fun v => v⟩
    1 2 [([0], 1)] [([0], -1)] [([0], 2)] 2 (by decide) (by decide) (by decide)
    (by decide)
  refine ⟨?_, h.2.2.2 ([([0], 1)], 2)⟩
  rw [h.1]
  decide

/-- C4: mirror descent over a measurement list with zero iterations and no
initial potentials returns the model whose potentials are the zero vector over
the loss cliques and whose marginals are the oracle applied to those zeros and
the estimated total. -/
theorem mirror_descent_zero_iters {F D : Type} (ops : FactorOps F D)
    (flm : List LinearMeasurement → MarginalLossFn F)
    (oracle : CliqueVector F → ℚ → CliqueVector F) (domain : D)
    (ms : List LinearMeasurement) :
    mirror_descent ops flm oracle domain (Sum.inl ms) none none 0 none =
      some ⟨CliqueVector.zeros ops domain (flm ms).cliques,
            oracle (CliqueVector.zeros ops domain (flm ms).cliques)
              (minimum_variance_unbiased_total ms),
            minimum_variance_unbiased_total ms⟩ := rfl

/-! Helper lemmas about the AIM budget accounting. -/

theorem zcdp_gaussian_mech_rhoUsed {F D S : Type} (env : AimEnv F D S)
    (st : MechState) (val : List ℚ) (sens rho : ℚ) :
    (zcdp_gaussian_mech env st val sens rho).1.rhoUsed = st.rhoUsed + rho := rfl

theorem onewayFold_state {F D S : Type} (env : AimEnv F D S) (r1 : ℚ)
    (l : List Clique) (acc : MechState × List LinearMeasurement) :
    (l.foldl (onewayStep env r1) acc).1.rhoUsed = acc.1.rhoUsed + l.length * r1
    ∧ (l.foldl (onewayStep env r1) acc).2.length = acc.2.length + l.length := by
  induction l generalizing acc with
  | nil => simp
  | cons hd tl ih =>
      rw [List.foldl_cons]
      have h := ih (onewayStep env r1 acc hd)
      have h1 : (onewayStep env r1 acc hd).1.rhoUsed = acc.1.rhoUsed + r1 := rfl
      have h2 : (onewayStep env r1 acc hd).2.length = acc.2.length + 1 := by
        simp [onewayStep]
      constructor
      · rw [h.1, h1]
        push_cast [List.length_cons]
        ring
      · rw [h.2, h2]
        simp only [List.length_cons]
        ring

theorem aimRound_state {F D S : Type} (env : AimEnv F D S)
    (rho maxModelSize : ℚ) (maxIters : ℕ)
    (candidates : List (Clique × ℚ)) (answers : Clique → List ℚ)
    (r1 ri : ℚ) (s out : MechState × List LinearMeasurement × GraphicalModel F)
    (h : aimRound env rho maxModelSize maxIters candidates answers r1 ri s = some out) :
    out.1.rhoUsed = s.1.rhoUsed + ri / 2 ∧ out.2.1.length = s.2.1.length + 1 := by
  simp only [aimRound, Option.bind_eq_bind, Option.pure_def,
    Option.bind_eq_some, Option.some.injEq] at h
  obtain ⟨small, hsmall, h⟩ := h
  obtain ⟨cl, hcl, h⟩ := h
  obtain ⟨pots, hpots, h⟩ := h
  obtain ⟨model2, hmodel, h⟩ := h
  subst h
  constructor
  · rfl
  · simp

theorem aimLoop_state {F D S : Type} (env : AimEnv F D S)
    (rho maxModelSize : ℚ) (maxIters : ℕ)
    (candidates : List (Clique × ℚ)) (answers : Clique → List ℚ)
    (r1 ri : ℚ) :
    ∀ (k : ℕ) (s out : MechState × List LinearMeasurement × GraphicalModel F),
      aimLoop env rho maxModelSize maxIters candidates answers r1 ri k s = some out →
      out.1.rhoUsed = s.1.rhoUsed + k * (ri / 2)
      ∧ out.2.1.length = s.2.1.length + k := by
  intro k
  induction k with
  | zero =>
      intro s out h
      obtain rfl : s = out := by simpa [aimLoop] using h
      simp
  | succ k ih =>
      intro s out h
      simp only [aimLoop, Option.bind_eq_bind, Option.bind_eq_some] at h
      obtain ⟨s', hs', hloop⟩ := h
      have hr := aimRound_state env rho maxModelSize maxIters candidates answers
        r1 ri s s' hs'
      have hl := ih s' out hloop
      constructor
      · rw [hl.1, hr.1]
        push_cast
        ring
      · rw [hl.2, hr.2]
        ring

theorem AIM_run_completed {F D S : Type} (env : AimEnv F D S)
    (rho maxModelSize : ℚ) (maxIters : ℕ) (rounds : Option ℕ)
    (workload : List (Clique × ℚ)) (nsr : Option ℕ) (out : RunOutput F S)
    (h : AIM_run env rho rounds maxModelSize maxIters workload nsr none = some out) :
    (((compile_workload workload).map Prod.fst).filter
        (fun cl => cl.length = 1)).length ≠ 0
    ∧ workload.length / 4 ≠ 0
    ∧ out.state.rhoUsed =
        ((((compile_workload workload).map Prod.fst).filter
            (fun cl => cl.length = 1)).length : ℚ) *
          (rho * (5 / 100) /
            ((((compile_workload workload).map Prod.fst).filter
              (fun cl => cl.length = 1)).length : ℚ))
        + ((workload.length / 4 : ℕ) : ℚ) *
            (rho * (95 / 100) / ((workload.length / 4 : ℕ) : ℚ) / 2)
    ∧ out.measurements.length =
        (((compile_workload workload).map Prod.fst).filter
          (fun cl => cl.length = 1)).length + workload.length / 4 := by
  simp only [AIM_run] at h
  split at h
  case isTrue hc => simp at h
  case isFalse hc1 =>
    simp only [Option.bind_eq_bind, Option.pure_def, Option.bind_eq_some,
      Option.some.injEq] at h
    obtain ⟨model1, hm1, h⟩ := h
    split at h
    case isTrue hc => simp at h
    case isFalse hc2 =>
      simp only [Option.bind_eq_bind, Option.pure_def, Option.bind_eq_some,
        Option.some.injEq] at h
      obtain ⟨s2, hs2, finalModel, hfm, h⟩ := h
      have hstate : out.state = s2.1 := by rw [← h]
      have hms : out.measurements = s2.2.1 := by rw [← h]
      have hloop := aimLoop_state env rho maxModelSize maxIters
        (compile_workload workload) env.dataVec
        (rho * (5 / 100) /
          ((((compile_workload workload).map Prod.fst).filter
            (fun cl => cl.length = 1)).length : ℚ))
        (rho * (95 / 100) / ((workload.length / 4 : ℕ) : ℚ))
        (workload.length / 4) _ s2 hs2
      have hfold := onewayFold_state env
        (rho * (5 / 100) /
          ((((compile_workload workload).map Prod.fst).filter
            (fun cl => cl.length = 1)).length : ℚ))
        (((compile_workload workload).map Prod.fst).filter
          (fun cl => cl.length = 1))
        (⟨0, 0⟩, [])
      refine ⟨hc1, hc2, ?_, ?_⟩
      · rw [hstate, hloop.1]
        simp only [hfold.1]
        ring
      · rw [hms, hloop.2]
        simp only [hfold.2]
        simp

/-- C1: for a valid budget (rho nonnegative, as derived from a valid epsilon
and delta) and any workload, a completed default run of AIM leaves the
accumulated `rho_used` at most the configured total rho: the one-way round
consumes exactly 5 percent of rho and each of the floor(workload/4) adaptive
rounds consumes half its even share of the remaining 95 percent, which totals
21/40 of rho. -/
theorem aim_run_budget_conservation {F D S : Type} (env : AimEnv F D S)
    (rho maxModelSize : ℚ) (maxIters : ℕ) (rounds : Option ℕ)
    (workload : List (Clique × ℚ)) (nsr : Option ℕ) (out : RunOutput F S)
    (hrho : 0 ≤ rho)
    (h : AIM_run env rho rounds maxModelSize maxIters workload nsr none = some out) :
    out.state.rhoUsed ≤ rho := by
  obtain ⟨h1, h2, hval, _⟩ :=
    AIM_run_completed env rho maxModelSize maxIters rounds workload nsr out h
  rw [hval]
  have hn : ((((compile_workload workload).map Prod.fst).filter
      (fun cl => cl.length = 1)).length : ℚ) ≠ 0 := by exact_mod_cast h1
  have hk : (((workload.length / 4 : ℕ)) : ℚ) ≠ 0 := by exact_mod_cast h2
  have e1 : ((((compile_workload workload).map Prod.fst).filter
        (fun cl => cl.length = 1)).length : ℚ) *
      (rho * (5 / 100) /
        ((((compile_workload workload).map Prod.fst).filter
          (fun cl => cl.length = 1)).length : ℚ)) = rho * (5 / 100) := by
    field_simp
    ring
  have e2 : (((workload.length / 4 : ℕ)) : ℚ) *
      (rho * (95 / 100) / (((workload.length / 4 : ℕ)) : ℚ) / 2) =
        rho * (95 / 100) / 2 := by
    field_simp
    ring
  rw [e1, e2]
  linarith

/-- Witness for budget conservation: the concrete completed run uses 21/40 of
the unit budget, within the bound. -/
theorem aim_run_budget_conservation_witness :
    (0 : ℚ) ≤ 1 ∧ wOut.state.rhoUsed ≤ 1 :=
  ⟨by decide,
   aim_run_budget_conservation wEnv 1 80 0 none wWorkload none wOut (by decide) rfl⟩

/-- C10: the rounds constructor argument, and hence also the default round
count of 16 times the attribute count computed inside run, never influences
any output of run (the bound variable is dead code), and a completed default
run appends exactly floor(workload/4) adaptive measurements after the one-way
measurements, one per adaptive round. -/
theorem aim_run_rounds_irrelevant {F D S : Type} (env : AimEnv F D S)
    (rho maxModelSize : ℚ) (maxIters : ℕ) (workload : List (Clique × ℚ))
    (nsr : Option ℕ) (ic : Option (List Clique)) :
    (∀ r1 r2 : Option ℕ,
        AIM_run env rho r1 maxModelSize maxIters workload nsr ic =
          AIM_run env rho r2 maxModelSize maxIters workload nsr ic)
    ∧ (∀ (r : Option ℕ) (out : RunOutput F S),
        AIM_run env rho r maxModelSize maxIters workload nsr none = some out →
        out.measurements.length =
          (((compile_workload workload).map Prod.fst).filter
            (fun cl => cl.length = 1)).length + workload.length / 4) :=
  ⟨fun _ _ => rfl,
   fun r out h =>
    (AIM_run_completed env rho maxModelSize maxIters r workload nsr out h).2.2.2⟩

/-- Witness for the dead rounds argument: two concrete runs differing only in
the rounds argument coincide, and the completed run holds two one-way
measurements plus one adaptive measurement for the four-entry workload. -/
theorem aim_run_rounds_irrelevant_witness :
    AIM_run wEnv 1 (some 5) 80 0 wWorkload none none =
      AIM_run wEnv 1 (some 640) 80 0 wWorkload none none
    ∧ wOut.measurements.length =
        (((compile_workload wWorkload).map Prod.fst).filter
          (fun cl => cl.length = 1)).length + wWorkload.length / 4 :=
  ⟨(aim_run_rounds_irrelevant wEnv 1 80 0 wWorkload none none).1 (some 5) (some 640),
   (aim_run_rounds_irrelevant wEnv 1 80 0 wWorkload none none).2 none wOut rfl⟩

/-- C2, code evaluation at the failing input: on the concrete unit-budget run
all three recorded standard deviations equal sqrt(1/(2 rho_oneway_i)) (the
identity square root makes this 20), including the adaptive-round
measurement, although the Gaussian call of that round consumed
rho_iters_i/2 = 19/40, whose noise scale is sqrt(1/(2 * 19/40)) (here 20/19).
Since the true square root is injective on positive inputs, the recorded
stddev of the adaptive measurement differs from the standard deviation of the
noise actually added, contradicting the stddev field contract; the source
reuses `rho_oneway_i` on line 160 where the parallel one-way code on line 139
uses the allocation of its own Gaussian call. -/
theorem aim_adaptive_std_mismatch :
    ((AIM_run wEnv 1 none 80 0 wWorkload none none).map
        (fun out => out.measurements.map (fun M => M.stddev))) =
      some [20, 20, 20]
    ∧ wEnv.sqrtFn (1 / (2 * (1 * (5 / 100) / 2))) = 20
    ∧ wEnv.sqrtFn (1 / (2 * (1 * (95 / 100) / 1 / 2))) = 20 / 19
    ∧ ((20 : ℚ) ≠ 20 / 19) := by
  decide
